import Mathlib

/-!
# Verification of the EEG-pipeline core

A shallow embedding, over exact rational arithmetic, of the core of the
EEG pipeline: the signal windower (`src/preprocess_eeg.py`,
`preprocess_eeg_windowed`), the spectral feature extractor
(`_extract_spectral_features`), the LinUCB contextual bandit
(`src/rl_bandit.py`) and the per-cycle bandit update of the online
feedback loop (`src/errp_feedback.py`, `online_loop`).

Machine floats are idealised as `ℚ` (state, powers, windowing times) and
`ℝ` (bandit scores, which involve a square root).  External collaborators
(the Welch PSD estimate, the LSL streams, the ErrP detector network) are
abstracted as inputs to the embedded functions, exactly at the interface
the source code consumes them.
-/

namespace EEGPipeline

/-! ## Signal windower (`preprocess_eeg_windowed`)

`np.arange(start, stop, step)` for `step > 0` returns
`start, start + step, ...` with length `max 0 ⌈(stop - start) / step⌉`
(the stop is exclusive).  `raw.times[-1]` for `n` samples at rate `sf`
is `(n - 1) / sf`. -/

/-- Length of `np.arange start stop step` (for positive `step`):
`⌈(stop - start) / step⌉`, clamped to `0`. -/
def arangeLen (start stop step : ℚ) : ℕ :=
  (Int.ceil ((stop - start) / step)).toNat

/-- `np.arange start stop step`: the arithmetic progression from `start`,
advancing by `step`, with exclusive upper bound `stop`. -/
def arange (start stop step : ℚ) : List ℚ :=
  (List.range (arangeLen start stop step)).map (fun (i : ℕ) => start + (i : ℚ) * step)

/-- The window start times computed by `preprocess_eeg_windowed` on a
recording of `n` samples at rate `sf` with window `W` seconds and overlap
`O` seconds:
`np.arange(0, raw.times[-1] - window_duration + 1/sfreq, step)` where
`raw.times[-1] = (n-1)/sf` and `step = W - O`.  The guard
`step_duration_sec <= 0` (source line 117) returns no windows. -/
def window_starts_sec (n : ℕ) (sf W O : ℚ) : List ℚ :=
  if W - O ≤ 0 then []
  else arange 0 (((n : ℚ) - 1) / sf - W + 1 / sf) (W - O)

/-- Number of windows produced: one per entry of `window_starts_sec`
(each loop iteration appends exactly one processed window). -/
def numWindows (n : ℕ) (sf W O : ℚ) : ℕ :=
  (window_starts_sec n sf W O).length

/-! ## Spectral feature extractor (`_extract_spectral_features`)

The Welch PSD estimate is an external DSP primitive; the extractor
consumes its output `(psds, freqs)` with `psds : channels × freq-bins`
and `freqs` the bin centre frequencies.  We embed the extractor from
that interface on.  Feature dictionaries become association lists in
insertion order (Python dicts preserve insertion order). -/

/-- Python `str.lower()` on the ASCII band names: per-character
`Char.toLower`. -/
def lowerStr (s : String) : String := String.mk (s.data.map Char.toLower)

/-- The band table `BANDS` of `preprocess_eeg.py`, in insertion order:
name, lower edge (inclusive), upper edge (exclusive). -/
def BANDS : List (String × ℚ × ℚ) :=
  [("Delta", (1/2 : ℚ), (4 : ℚ)),
   ("Theta", (4 : ℚ), (8 : ℚ)),
   ("Alpha", (8 : ℚ), (12 : ℚ)),
   ("Sigma", (12 : ℚ), (15 : ℚ)),
   ("Beta", (15 : ℚ), (30 : ℚ))]

/-- Sum of the PSD values of one channel over the bins whose frequency
`f` satisfies `fmin ≤ f < fmax` (the band mask of source line 57). -/
def bandSum (fmin fmax : ℚ) (freqs row : List ℚ) : ℚ :=
  (((freqs.zip row).filter (fun p => decide (fmin ≤ p.1) && decide (p.1 < fmax))).map
    Prod.snd).sum

/-- `np.mean` of a list: sum divided by length. -/
def npMean (l : List ℚ) : ℚ := l.sum / (l.length : ℚ)

/-- Absolute band power: per-channel in-band sum, averaged across
channels (source line 59). -/
def absBandPower (fmin fmax : ℚ) (psds : List (List ℚ)) (freqs : List ℚ) : ℚ :=
  npMean (psds.map (fun row => bandSum fmin fmax freqs row))

/-- The dictionary `abs_band_powers`: band name ↦ absolute band power,
in `BANDS` insertion order. -/
def absBandPowers (psds : List (List ℚ)) (freqs : List ℚ) : List (String × ℚ) :=
  BANDS.map (fun b => (b.1, absBandPower b.2.1 b.2.2 psds freqs))

/-- Python `dict.get(key, default)`: the stored value when the key is
present, the default otherwise. -/
def dictGet (d : List (String × ℚ)) (key : String) (default : ℚ) : ℚ :=
  match d.find? (fun p => p.1 == key) with
  | some p => p.2
  | none => default

/-- `total_power`: the sum of the absolute powers of the defined bands
(source line 63). -/
def totalPower (psds : List (List ℚ)) (freqs : List ℚ) : ℚ :=
  ((absBandPowers psds freqs).map Prod.snd).sum

/-- The feature dictionary built by `_extract_spectral_features` from the
PSD matrix: the five `abs_*` entries always, and — only under the gate
`total_power > 0` — the `rel_*` entries followed by the two cross-band
ratios, whose denominators are `abs_band_powers.get("Delta", 1e-9)` and
`abs_band_powers.get("Beta", 1e-9)`. -/
def extract_spectral_features (psds : List (List ℚ)) (freqs : List ℚ) :
    List (String × ℚ) :=
  let abp := absBandPowers psds freqs
  let absFeats := abp.map (fun p => ("abs_" ++ lowerStr p.1, p.2))
  let total := (abp.map Prod.snd).sum
  if 0 < total then
    absFeats ++ abp.map (fun p => ("rel_" ++ lowerStr p.1, p.2 / total)) ++
      [("ratio_alpha_delta", dictGet abp "Alpha" 0 / dictGet abp "Delta" (1/1000000000)),
       ("ratio_theta_beta", dictGet abp "Theta" 0 / dictGet abp "Beta" (1/1000000000))]
  else absFeats

/-! ## LinUCB contextual bandit (`rl_bandit.py`)

State over exact rationals; `select`'s scores live in `ℝ` because of the
exploration square root.  `np.argmax` returns the first index attaining
the maximum. -/

/-- The state of `class LinUCBBandit`: exploration coefficient `alpha`,
and per action an accumulation matrix `A` and vector `b` (`n_features`
is the type index `k`, `n_actions` is `nA`). -/
structure LinUCBBandit (k nA : ℕ) where
  alpha : ℚ
  A : Fin nA → Matrix (Fin k) (Fin k) ℚ
  b : Fin nA → (Fin k → ℚ)

/-- `LinUCBBandit.__init__`: every `A_a` is the identity, every `b_a`
is zero. -/
def LinUCBBandit.init (k nA : ℕ) (alpha : ℚ) : LinUCBBandit k nA :=
  { alpha := alpha, A := fun _ => 1, b := fun _ => 0 }

/-- `np.linalg.inv` over `ℚ`, in adjugate form `det⁻¹ • adj`.  This
agrees with the true inverse whenever the matrix is invertible — the
only case the source reaches, since every `A_a` stays positive
definite; `np.linalg.inv` raises `LinAlgError` otherwise. -/
def matInv {k : ℕ} (M : Matrix (Fin k) (Fin k) ℚ) : Matrix (Fin k) (Fin k) ℚ :=
  (M.det)⁻¹ • M.adjugate

/-- `np.linalg.solve A b`: the solution of `A x = b` for invertible
`A`, embedded as `A⁻¹ b` in adjugate form. -/
def npSolve {k : ℕ} (M : Matrix (Fin k) (Fin k) ℚ) (v : Fin k → ℚ) : Fin k → ℚ :=
  (matInv M).mulVec v

/-- `LinUCBBandit._theta`: `solve(A_a, b_a)`. -/
def LinUCBBandit.theta {k nA : ℕ} (bandit : LinUCBBandit k nA) (a : Fin nA) :
    Fin k → ℚ :=
  npSolve (bandit.A a) (bandit.b a)

/-- `np.argmax` over a list: the first index attaining the maximum
(`0` on the empty list, on which `np.argmax` raises). -/
def argmaxIdx {α : Type} [LinearOrder α] : List α → ℕ
  | [] => 0
  | x :: xs =>
    let j := argmaxIdx xs
    if x < xs.getD j x then j + 1 else 0

/-- `LinUCBBandit.select`: score each action by
`theta_aᵀ·x + alpha * sqrt(xᵀ · A_a⁻¹ · x)` and return
`int(np.argmax(p))`. -/
noncomputable def LinUCBBandit.select {k nA : ℕ} (bandit : LinUCBBandit k nA)
    (ctx : Fin k → ℚ) : ℕ :=
  argmaxIdx ((List.finRange nA).map (fun a =>
    ((Matrix.dotProduct (bandit.theta a) ctx : ℚ) : ℝ) +
      (bandit.alpha : ℝ) *
        Real.sqrt ((Matrix.dotProduct ctx ((matInv (bandit.A a)).mulVec ctx) : ℚ) : ℝ)))

/-- `LinUCBBandit.update`: `A[action] += x xᵀ`, `b[action] += reward·x`;
all other actions untouched.  The action is a Python `int`; the indexing
`self.A[action]` reaches index `action` of the per-action lists. -/
def LinUCBBandit.update {k nA : ℕ} (bandit : LinUCBBandit k nA) (ctx : Fin k → ℚ)
    (action : ℕ) (reward : ℚ) : LinUCBBandit k nA :=
  { bandit with
    A := fun j => if (j : ℕ) = action
      then bandit.A j + Matrix.vecMulVec ctx ctx else bandit.A j,
    b := fun j => if (j : ℕ) = action
      then bandit.b j + reward • ctx else bandit.b j }

/-- A finite sequence of `update` calls, applied in order. -/
def runUpdates {k nA : ℕ} (bandit : LinUCBBandit k nA)
    (updates : List ((Fin k → ℚ) × ℕ × ℚ)) : LinUCBBandit k nA :=
  updates.foldl (fun bd u => bd.update u.1 u.2.1 u.2.2) bandit

/-- `bandit_step`: build the context from the feature dict's values in
insertion order (`np.array(list(features.values()))`, assumed to match
the bandit's dimension `k`; entries beyond the list default to `0` to
keep the embedding total), select, compute the reward of the selected
action, update that action, return `(action, reward)` with the new
state. -/
noncomputable def bandit_step {k nA : ℕ} (bandit : LinUCBBandit k nA)
    (features : List (String × ℚ)) (reward_fn : ℕ → ℚ) :
    (ℕ × ℚ) × LinUCBBandit k nA :=
  let ctx : Fin k → ℚ := fun i => (features.map Prod.snd).getD i 0
  let a := bandit.select ctx
  let r := reward_fn a
  ((a, r), bandit.update ctx a r)

/-! ## Online feedback loop (`errp_feedback.py`) -/

/-- The bandit mutation of one `online_loop` cycle (source lines 27–37):
`reward = 1.0 - prob_err` and `bandit.update(ctx, action=0, reward)`,
with `n_actions = 3` and `n_features = 10` as constructed in the loop.
The ErrP-network output `prob_err` and the random placeholder context
`ctx` are external inputs, passed as parameters. -/
def onlineCycleUpdate (bandit : LinUCBBandit 10 3) (ctx : Fin 10 → ℚ)
    (prob_err : ℚ) : LinUCBBandit 10 3 :=
  bandit.update ctx 0 (1 - prob_err)

/-! ## Positive definiteness over `ℚ` -/

/-- Symmetric positive-definite rational matrix. -/
def IsPosDef {k : ℕ} (M : Matrix (Fin k) (Fin k) ℚ) : Prop :=
  M.IsSymm ∧ ∀ x : Fin k → ℚ, x ≠ 0 → 0 < Matrix.dotProduct x (M.mulVec x)

lemma isPosDef_one {k : ℕ} : IsPosDef (1 : Matrix (Fin k) (Fin k) ℚ) := by
  constructor
  · exact Matrix.transpose_one
  · intro x hx
    rw [Matrix.one_mulVec]
    have h0 : Matrix.dotProduct x x ≠ 0 := fun hc => hx (Matrix.dotProduct_self_eq_zero.mp hc)
    have h1 : 0 ≤ Matrix.dotProduct x x :=
      Finset.sum_nonneg fun i _ => mul_self_nonneg _
    exact lt_of_le_of_ne h1 (Ne.symm h0)

lemma dotProduct_vecMulVec_self {k : ℕ} (v x : Fin k → ℚ) :
    Matrix.dotProduct x ((Matrix.vecMulVec v v).mulVec x) =
      Matrix.dotProduct v x * Matrix.dotProduct v x := by
  simp only [Matrix.dotProduct, Matrix.mulVec, Matrix.vecMulVec_apply,
    Finset.sum_mul, Finset.mul_sum]
  rw [Finset.sum_comm]
  refine Finset.sum_congr rfl fun i _ => Finset.sum_congr rfl fun j _ => by ring

lemma isPosDef_add_vecMulVec {k : ℕ} {M : Matrix (Fin k) (Fin k) ℚ}
    (hM : IsPosDef M) (v : Fin k → ℚ) : IsPosDef (M + Matrix.vecMulVec v v) := by
  constructor
  · unfold Matrix.IsSymm
    rw [Matrix.transpose_add, hM.1]
    congr 1
    ext i j
    simp [Matrix.transpose_apply, Matrix.vecMulVec_apply, mul_comm]
  · intro x hx
    rw [Matrix.add_mulVec, Matrix.dotProduct_add, dotProduct_vecMulVec_self]
    have h1 := hM.2 x hx
    nlinarith [mul_self_nonneg (Matrix.dotProduct v x)]

lemma isPosDef_isUnit {k : ℕ} {M : Matrix (Fin k) (Fin k) ℚ}
    (hM : IsPosDef M) : IsUnit M := by
  rw [Matrix.isUnit_iff_isUnit_det, isUnit_iff_ne_zero]
  intro hdet
  obtain ⟨v, hv, hMv⟩ := (Matrix.exists_mulVec_eq_zero_iff).mpr hdet
  have := hM.2 v hv
  rw [hMv, Matrix.dotProduct_zero] at this
  exact lt_irrefl 0 this

lemma runUpdates_posdef {k nA : ℕ} (bandit : LinUCBBandit k nA)
    (updates : List ((Fin k → ℚ) × ℕ × ℚ)) (h : ∀ a, IsPosDef (bandit.A a)) :
    ∀ a, IsPosDef ((runUpdates bandit updates).A a) := by
  induction updates generalizing bandit with
  | nil => exact h
  | cons u us ih =>
    refine ih _ fun a => ?_
    unfold LinUCBBandit.update
    dsimp only
    split
    · exact isPosDef_add_vecMulVec (h a) u.1
    · exact h a

/-! ## Helper lemmas: `np.argmax` semantics -/


lemma argmaxIdx_lt_length {α : Type} [LinearOrder α] (l : List α) (h : l ≠ []) :
    argmaxIdx l < l.length := by
  induction l with
  | nil => exact absurd rfl h
  | cons x xs ih =>
    by_cases hxs : xs = []
    · subst hxs; simp [argmaxIdx]
    · have hlt := ih hxs
      simp only [argmaxIdx, List.length_cons]
      split
      · exact Nat.succ_lt_succ hlt
      · exact Nat.succ_pos _

lemma argmaxIdx_ge {α : Type} [LinearOrder α] (d : α) (l : List α) (i : ℕ)
    (hi : i < l.length) : l.getD i d ≤ l.getD (argmaxIdx l) d := by
  induction l generalizing i with
  | nil => simp at hi
  | cons x xs ih =>
    simp only [List.length_cons] at hi
    by_cases hxs : xs = []
    · subst hxs
      match i with
      | 0 => simp [argmaxIdx]
      | Nat.succ i' => exact absurd hi (by simp)
    · have hj : argmaxIdx xs < xs.length := argmaxIdx_lt_length xs hxs
      have hdefault : xs.getD (argmaxIdx xs) x = xs.getD (argmaxIdx xs) d := by
        rw [List.getD_eq_getElem xs x hj, List.getD_eq_getElem xs d hj]
      simp only [argmaxIdx]
      split
      · rename_i hcond
        match i with
        | 0 =>
          simp only [List.getD_cons_zero, List.getD_cons_succ]
          rw [← hdefault]
          exact le_of_lt hcond
        | Nat.succ i' =>
          simp only [List.getD_cons_succ]
          exact ih i' (Nat.lt_of_succ_lt_succ hi)
      · rename_i hcond
        match i with
        | 0 => simp [List.getD_cons_zero]
        | Nat.succ i' =>
          simp only [List.getD_cons_succ, List.getD_cons_zero]
          have h1 : xs.getD i' d ≤ xs.getD (argmaxIdx xs) d :=
            ih i' (Nat.lt_of_succ_lt_succ hi)
          have h2 : xs.getD (argmaxIdx xs) d ≤ x := by
            rw [← hdefault]; exact le_of_not_lt hcond
          exact le_trans h1 h2

lemma argmaxIdx_first {α : Type} [LinearOrder α] (d : α) (l : List α) (i : ℕ)
    (hi : i < argmaxIdx l) : l.getD i d < l.getD (argmaxIdx l) d := by
  induction l generalizing i with
  | nil => simp [argmaxIdx] at hi
  | cons x xs ih =>
    by_cases hxs : xs = []
    · subst hxs; simp [argmaxIdx] at hi
    · have hj : argmaxIdx xs < xs.length := argmaxIdx_lt_length xs hxs
      have hdefault : xs.getD (argmaxIdx xs) x = xs.getD (argmaxIdx xs) d := by
        rw [List.getD_eq_getElem xs x hj, List.getD_eq_getElem xs d hj]
      simp only [argmaxIdx] at hi ⊢
      split
      · rename_i hcond
        rw [if_pos hcond] at hi
        match i with
        | 0 =>
          simp only [List.getD_cons_zero, List.getD_cons_succ]
          rw [← hdefault]
          exact hcond
        | Nat.succ i' =>
          simp only [List.getD_cons_succ]
          exact ih i' (Nat.lt_of_succ_lt_succ hi)
      · rename_i hcond
        rw [if_neg hcond] at hi
        exact absurd hi (Nat.not_lt_zero i)

lemma argmaxIdx_map_cast (l : List ℚ) :
    argmaxIdx (l.map (fun (q : ℚ) => (q : ℝ))) = argmaxIdx l := by
  induction l with
  | nil => rfl
  | cons x xs ih =>
    simp only [List.map_cons, argmaxIdx, ih]
    have hd : (xs.map (fun (q : ℚ) => (q : ℝ))).getD (argmaxIdx xs) ((x : ℚ) : ℝ) =
        ((xs.getD (argmaxIdx xs) x : ℚ) : ℝ) :=
      List.getD_map xs x (fun (q : ℚ) => (q : ℝ))
    rw [hd]
    by_cases hc : x < xs.getD (argmaxIdx xs) x
    · rw [if_pos hc, if_pos (Rat.cast_lt.mpr hc)]
    · rw [if_neg hc, if_neg (fun hcon => hc (Rat.cast_lt.mp hcon))]

/-! ## Helper lemmas for the spectral extractor -/

/-- `totalPower` unfolded over the five concrete bands. -/
lemma totalPower_expand (psds : List (List ℚ)) (freqs : List ℚ) :
    totalPower psds freqs =
      absBandPower 2⁻¹ 4 psds freqs + (absBandPower 4 8 psds freqs +
        (absBandPower 8 12 psds freqs + (absBandPower 12 15 psds freqs +
          absBandPower 15 30 psds freqs))) := by
  simp [totalPower, absBandPowers, BANDS]

/-- The feature dictionary in fully evaluated form: keys expanded, the
`dict.get` calls of the two ratios resolved (every band name is a key of
`abs_band_powers`, so the `1e-9` defaults never apply and the Delta and
Beta denominators are the raw band powers). -/
lemma extract_spectral_features_eq (psds : List (List ℚ)) (freqs : List ℚ) :
    extract_spectral_features psds freqs =
      (let aδ := absBandPower 2⁻¹ 4 psds freqs
       let aθ := absBandPower 4 8 psds freqs
       let aα := absBandPower 8 12 psds freqs
       let aσ := absBandPower 12 15 psds freqs
       let aβ := absBandPower 15 30 psds freqs
       let T := totalPower psds freqs
       if 0 < T then
         [("abs_delta", aδ), ("abs_theta", aθ), ("abs_alpha", aα),
          ("abs_sigma", aσ), ("abs_beta", aβ),
          ("rel_delta", aδ / T), ("rel_theta", aθ / T), ("rel_alpha", aα / T),
          ("rel_sigma", aσ / T), ("rel_beta", aβ / T),
          ("ratio_alpha_delta", aα / aδ), ("ratio_theta_beta", aθ / aβ)]
       else
         [("abs_delta", aδ), ("abs_theta", aθ), ("abs_alpha", aα),
          ("abs_sigma", aσ), ("abs_beta", aβ)]) := by
  simp +decide [extract_spectral_features, absBandPowers, BANDS, dictGet, List.find?,
    lowerStr, totalPower_expand]

/-- `arange` produces `arangeLen` entries. -/
lemma length_arange (start stop step : ℚ) :
    (arange start stop step).length = arangeLen start stop step := by
  unfold arange
  exact (List.length_map _ _).trans (List.length_range _)

/-- The spec's pure greedy exploitation scores: `theta_a · x` per action,
in action order (the `alpha = 0` reading of §4.3 of the spec). -/
def greedyScores {k nA : ℕ} (bandit : LinUCBBandit k nA) (ctx : Fin k → ℚ) :
    List ℚ :=
  (List.finRange nA).map (fun a => Matrix.dotProduct (bandit.theta a) ctx)

/-! ## Claims -/

/-- C1 (counterexample): for `D = 10 s` (1000 samples at 100 Hz),
`W = 4`, `O = 1`, the code's window starts are `{0, 3}` and the window
count is `2`, while the claimed formula `⌊(D-W)/step⌋ + 1` gives `3`
with starts `{0, 3, 6}`: the boundary window starting exactly at
`D - W` is excluded by `np.arange`'s exclusive stop. -/
theorem windower_example_count_is_two :
    window_starts_sec 1000 100 4 1 = [0, 3] ∧
    numWindows 1000 100 4 1 = 2 ∧
    (Int.floor ((((1000 : ℚ) / 100) - 4) / (4 - 1))).toNat + 1 = 3 := by
  refine ⟨?_, ?_, ?_⟩
  · norm_num [window_starts_sec, arange, arangeLen]
    rw [show Int.toNat 2 = 2 from rfl]
    simp [List.range_succ]
  · norm_num [numWindows, window_starts_sec, arange, arangeLen]
    rw [show Int.toNat 2 = 2 from rfl]
  · norm_num
    decide

/-- C1 (amended): for `n` samples at rate `sf > 0` (total duration
`D = n / sf`) and `0 ≤ O < W`, the windower produces
`⌈(D - W) / step⌉` windows when `D > W` and `0` windows otherwise; at an
exact multiple (`step ∣ D - W`) this is one fewer than the claimed
`⌊(D-W)/step⌋ + 1`, because the start `t = D - W` is excluded. -/
theorem windower_count_ceil_formula (n : ℕ) (sf W O : ℚ) (hsf : 0 < sf)
    (hO : 0 ≤ O) (hWO : O < W) :
    numWindows n sf W O =
      (if W < (n : ℚ) / sf
       then (Int.ceil (((n : ℚ) / sf - W) / (W - O))).toNat else 0) := by
  have hstep : 0 < W - O := sub_pos.mpr hWO
  have hguard : ¬ (W - O ≤ 0) := not_le.mpr hstep
  unfold numWindows window_starts_sec
  rw [if_neg hguard, length_arange]
  unfold arangeLen
  have hstop : (((n : ℚ) - 1) / sf - W + 1 / sf - 0) / (W - O) =
      ((n : ℚ) / sf - W) / (W - O) := by
    have hsf0 : sf ≠ 0 := ne_of_gt hsf
    field_simp
    ring
  rw [hstop]
  by_cases hD : W < (n : ℚ) / sf
  · rw [if_pos hD]
  · rw [if_neg hD]
    have h1 : (n : ℚ) / sf - W ≤ 0 := sub_nonpos.mpr (not_lt.mp hD)
    have h2 : ((n : ℚ) / sf - W) / (W - O) ≤ 0 :=
      div_nonpos_iff.mpr (Or.inr ⟨h1, hstep.le⟩)
    exact Int.toNat_of_nonpos (Int.ceil_le.mpr (by exact_mod_cast h2))

/-- Witness for C1's amended formula at `n = 700`, `sf = 100`, `W = 4`,
`O = 1` (`D = 7 > W`). -/
theorem windower_count_ceil_formula_witness :
    numWindows 700 100 4 1 =
      (if (4 : ℚ) < (700 : ℚ) / 100
       then (Int.ceil ((((700 : ℚ) / 100) - 4) / ((4 : ℚ) - 1))).toNat else 0) :=
  windower_count_ceil_formula 700 100 4 1 (by norm_num) (by norm_num) (by norm_num)

/-- C2: in every cycle of `online_loop`, the `bandit.update` call hits
the accumulators of the constant action `0` — regardless of which action
`aTrue ≠ 0` actually produced the decision marker being scored, that
action's `A` and `b` stay untouched while action `0` absorbs the update
`A_0 += x xᵗ`, `b_0 += (1 - prob_err)·x`. -/
theorem online_loop_update_ignores_marker_action
    (bandit : LinUCBBandit 10 3) (ctx : Fin 10 → ℚ) (prob_err : ℚ)
    (aTrue : Fin 3) (hTrue : (aTrue : ℕ) ≠ 0) :
    ((onlineCycleUpdate bandit ctx prob_err).A aTrue = bandit.A aTrue ∧
     (onlineCycleUpdate bandit ctx prob_err).b aTrue = bandit.b aTrue) ∧
    (onlineCycleUpdate bandit ctx prob_err).A 0 =
      bandit.A 0 + Matrix.vecMulVec ctx ctx ∧
    (onlineCycleUpdate bandit ctx prob_err).b 0 =
      bandit.b 0 + (1 - prob_err) • ctx := by
  unfold onlineCycleUpdate LinUCBBandit.update
  refine ⟨⟨?_, ?_⟩, ?_, ?_⟩ <;> simp [hTrue]

/-- Witness for C2 at the initial bandit, all-ones context,
`prob_err = 0` and true action `1`. -/
theorem online_loop_update_ignores_marker_action_witness :
    (onlineCycleUpdate (LinUCBBandit.init 10 3 1) (fun _ => 1) 0).A 1 =
      (LinUCBBandit.init 10 3 1).A 1 ∧
    (onlineCycleUpdate (LinUCBBandit.init 10 3 1) (fun _ => 1) 0).b 1 =
      (LinUCBBandit.init 10 3 1).b 1 :=
  (online_loop_update_ignores_marker_action (LinUCBBandit.init 10 3 1)
    (fun _ => 1) 0 1 (by decide)).1

/-- C3 (counterexample): on an input with zero total defined-band power
(one channel whose single PSD bin is `0`), the feature set contains
neither `ratio_alpha_delta` nor `ratio_theta_beta` — the ratio
computation sits inside the `total_power > 0` gate. -/
theorem ratio_features_absent_zero_total :
    totalPower [[0]] [1] = 0 ∧
    "ratio_alpha_delta" ∉ (extract_spectral_features [[0]] [1]).map Prod.fst ∧
    "ratio_theta_beta" ∉ (extract_spectral_features [[0]] [1]).map Prod.fst := by
  refine ⟨by norm_num [totalPower, absBandPowers, absBandPower, npMean, bandSum, BANDS],
    ?_, ?_⟩ <;>
  · norm_num +decide [extract_spectral_features, absBandPowers, absBandPower, npMean,
      bandSum, BANDS, lowerStr]

/-- C3 (amended): the cross-band ratio features are present exactly when
the total defined-band power is positive — they are gated together with
the relative powers, not computed independently of the gate. -/
theorem ratio_features_iff_total_pos (psds : List (List ℚ)) (freqs : List ℚ) :
    ("ratio_alpha_delta" ∈ (extract_spectral_features psds freqs).map Prod.fst ∧
     "ratio_theta_beta" ∈ (extract_spectral_features psds freqs).map Prod.fst) ↔
      0 < totalPower psds freqs := by
  rw [extract_spectral_features_eq]
  by_cases h : 0 < totalPower psds freqs <;> simp +decide [h]

/-- C4: at `psds = [[1,1]]`, `freqs = [10,20]` the Alpha power is `1`,
the Delta power is exactly `0` and the gate passes (`total = 2 > 0`), so
`ratio_alpha_delta` is computed — yet its denominator
`abs_band_powers.get("Delta", 1e-9)` evaluates to `0`, not to the floor
`1e-9` (the key `"Delta"` is always present, so the default never
applies), and the resulting ratio is not the claimed `alpha / 1e-9`:
the division is a genuine division by zero. -/
theorem ratio_delta_denominator_unfloored :
    absBandPower (1/2) 4 [[1,1]] [10,20] = 0 ∧
    0 < totalPower [[1,1]] [10,20] ∧
    dictGet (absBandPowers [[1,1]] [10,20]) "Delta" (1/1000000000) = 0 ∧
    (extract_spectral_features [[1,1]] [10,20]).lookup "ratio_alpha_delta" ≠
      some (absBandPower 8 12 [[1,1]] [10,20] / (1/1000000000)) := by
  refine ⟨?_, ?_, ?_, ?_⟩
  · norm_num [absBandPower, npMean, bandSum]
  · norm_num [totalPower, absBandPowers, absBandPower, npMean, bandSum, BANDS]
  · norm_num [dictGet, absBandPowers, absBandPower, npMean, bandSum, BANDS, List.find?]
  · norm_num +decide [extract_spectral_features, absBandPowers, absBandPower, npMean,
      bandSum, BANDS, dictGet, List.find?, lowerStr, List.lookup]

/-- C5: each `rel_*` feature equals absolute over total band power when
the total is positive and is entirely absent otherwise, and the five
relative powers sum to `1` whenever the total is positive. -/
theorem rel_powers_values_sum_and_absence (psds : List (List ℚ)) (freqs : List ℚ) :
    ((extract_spectral_features psds freqs).lookup "rel_delta" =
      (if 0 < totalPower psds freqs
       then some (absBandPower (1/2) 4 psds freqs / totalPower psds freqs) else none)) ∧
    ((extract_spectral_features psds freqs).lookup "rel_theta" =
      (if 0 < totalPower psds freqs
       then some (absBandPower 4 8 psds freqs / totalPower psds freqs) else none)) ∧
    ((extract_spectral_features psds freqs).lookup "rel_alpha" =
      (if 0 < totalPower psds freqs
       then some (absBandPower 8 12 psds freqs / totalPower psds freqs) else none)) ∧
    ((extract_spectral_features psds freqs).lookup "rel_sigma" =
      (if 0 < totalPower psds freqs
       then some (absBandPower 12 15 psds freqs / totalPower psds freqs) else none)) ∧
    ((extract_spectral_features psds freqs).lookup "rel_beta" =
      (if 0 < totalPower psds freqs
       then some (absBandPower 15 30 psds freqs / totalPower psds freqs) else none)) ∧
    (0 < totalPower psds freqs →
      ((extract_spectral_features psds freqs).lookup "rel_delta").getD 0 +
      ((extract_spectral_features psds freqs).lookup "rel_theta").getD 0 +
      ((extract_spectral_features psds freqs).lookup "rel_alpha").getD 0 +
      ((extract_spectral_features psds freqs).lookup "rel_sigma").getD 0 +
      ((extract_spectral_features psds freqs).lookup "rel_beta").getD 0 = 1) := by
  by_cases h : 0 < totalPower psds freqs
  · rw [extract_spectral_features_eq]
    simp +decide [h, List.lookup, one_div]
    rw [div_add_div_same, div_add_div_same, div_add_div_same, div_add_div_same,
      div_eq_one_iff_eq (ne_of_gt h), totalPower_expand]
    ring
  · rw [extract_spectral_features_eq]
    simp +decide [h, List.lookup]

/-- Witness for C5 at `psds = [[1,1]]`, `freqs = [10,20]`
(total power `2 > 0`): the relative powers sum to `1`. -/
theorem rel_powers_values_sum_and_absence_witness :
    ((extract_spectral_features [[1,1]] [10,20]).lookup "rel_delta" =
      (if 0 < totalPower [[1,1]] [10,20]
       then some (absBandPower (1/2) 4 [[1,1]] [10,20] / totalPower [[1,1]] [10,20])
       else none)) ∧
    ((extract_spectral_features [[1,1]] [10,20]).lookup "rel_delta").getD 0 +
      ((extract_spectral_features [[1,1]] [10,20]).lookup "rel_theta").getD 0 +
      ((extract_spectral_features [[1,1]] [10,20]).lookup "rel_alpha").getD 0 +
      ((extract_spectral_features [[1,1]] [10,20]).lookup "rel_sigma").getD 0 +
      ((extract_spectral_features [[1,1]] [10,20]).lookup "rel_beta").getD 0 = 1 :=
  ⟨(rel_powers_values_sum_and_absence [[1,1]] [10,20]).1,
   (rel_powers_values_sum_and_absence [[1,1]] [10,20]).2.2.2.2.2
     (by norm_num [totalPower, absBandPowers, absBandPower, npMean, bandSum, BANDS])⟩

/-- C6: every `A_a` starts as the identity, and after any finite
sequence of `update` calls it is still symmetric positive-definite and
invertible. -/
theorem banditA_identity_posdef_invertible (k nA : ℕ) (alpha : ℚ)
    (updates : List ((Fin k → ℚ) × ℕ × ℚ)) (a : Fin nA) :
    (LinUCBBandit.init k nA alpha).A a = 1 ∧
    IsPosDef ((runUpdates (LinUCBBandit.init k nA alpha) updates).A a) ∧
    IsUnit ((runUpdates (LinUCBBandit.init k nA alpha) updates).A a) := by
  have h := runUpdates_posdef (LinUCBBandit.init k nA alpha) updates
    (fun _ => isPosDef_one) a
  exact ⟨rfl, h, isPosDef_isUnit h⟩

/-- C7: `update(x, i, r)` leaves `A_j` and `b_j` unchanged for every
action `j ≠ i`. -/
theorem update_leaves_other_actions_unchanged {k nA : ℕ}
    (bandit : LinUCBBandit k nA) (ctx : Fin k → ℚ) (i : ℕ) (r : ℚ)
    (hi : i < nA) (j : Fin nA) (hj : (j : ℕ) ≠ i) :
    (bandit.update ctx i r).A j = bandit.A j ∧
    (bandit.update ctx i r).b j = bandit.b j := by
  constructor <;> simp [LinUCBBandit.update, hj]

/-- Witness for C7: updating action `0` of a fresh 2-action bandit
leaves action `1` untouched. -/
theorem update_leaves_other_actions_unchanged_witness :
    ((LinUCBBandit.init 1 2 1).update (fun _ => 1) 0 1).A 1 =
      (LinUCBBandit.init 1 2 1).A 1 ∧
    ((LinUCBBandit.init 1 2 1).update (fun _ => 1) 0 1).b 1 =
      (LinUCBBandit.init 1 2 1).b 1 :=
  update_leaves_other_actions_unchanged (LinUCBBandit.init 1 2 1)
    (fun _ => 1) 0 1 (by norm_num) 1 (by decide)

/-- C8: with `alpha = 0`, `select` returns an index below `n_actions`
whose greedy score `theta_a · x` is maximal, and every strictly smaller
index has a strictly smaller score — i.e. ties resolve to the lowest
index. -/
theorem select_alpha_zero_greedy_argmax {k nA : ℕ} (bandit : LinUCBBandit k nA)
    (ctx : Fin k → ℚ) (halpha : bandit.alpha = 0) (hnA : 0 < nA) :
    bandit.select ctx < nA ∧
    (∀ i, i < nA →
      (greedyScores bandit ctx).getD i 0 ≤
        (greedyScores bandit ctx).getD (bandit.select ctx) 0) ∧
    (∀ i, i < bandit.select ctx →
      (greedyScores bandit ctx).getD i 0 <
        (greedyScores bandit ctx).getD (bandit.select ctx) 0) := by
  have hlen : (greedyScores bandit ctx).length = nA := by
    simp [greedyScores]
  have hsel : bandit.select ctx = argmaxIdx (greedyScores bandit ctx) := by
    unfold LinUCBBandit.select greedyScores
    rw [halpha]
    simp only [Rat.cast_zero, zero_mul, add_zero]
    rw [show (fun a => ((Matrix.dotProduct (bandit.theta a) ctx : ℚ) : ℝ)) =
      (fun (q : ℚ) => (q : ℝ)) ∘ (fun a => Matrix.dotProduct (bandit.theta a) ctx)
      from rfl]
    rw [← List.map_map]
    exact argmaxIdx_map_cast _
  refine ⟨?_, ?_, ?_⟩
  · rw [hsel]
    have hne : greedyScores bandit ctx ≠ [] := by
      intro hnil
      have h0 : (greedyScores bandit ctx).length = 0 := by rw [hnil]; rfl
      omega
    have hlt := argmaxIdx_lt_length (greedyScores bandit ctx) hne
    omega
  · intro i hi
    rw [hsel]
    exact argmaxIdx_ge 0 _ i (by rw [hlen]; exact hi)
  · intro i hi
    rw [hsel] at hi ⊢
    exact argmaxIdx_first 0 _ i hi

/-- Witness for C8 on a fresh 2-action bandit with `alpha = 0`. -/
theorem select_alpha_zero_greedy_argmax_witness :
    (LinUCBBandit.init 1 2 0).select (fun _ => 1) < 2 ∧
    (∀ i, i < 2 →
      (greedyScores (LinUCBBandit.init 1 2 0) (fun _ => 1)).getD i 0 ≤
        (greedyScores (LinUCBBandit.init 1 2 0) (fun _ => 1)).getD
          ((LinUCBBandit.init 1 2 0).select (fun _ => 1)) 0) ∧
    (∀ i, i < (LinUCBBandit.init 1 2 0).select (fun _ => 1) →
      (greedyScores (LinUCBBandit.init 1 2 0) (fun _ => 1)).getD i 0 <
        (greedyScores (LinUCBBandit.init 1 2 0) (fun _ => 1)).getD
          ((LinUCBBandit.init 1 2 0).select (fun _ => 1)) 0) :=
  select_alpha_zero_greedy_argmax (LinUCBBandit.init 1 2 0) (fun _ => 1)
    rfl (by norm_num)

/-- C9: `bandit_step` builds the context from the feature values in
insertion order, returns the selected action with its reward
`reward_fn(action)`, and the new state is exactly `update` applied to
that same context, the selected action and that reward. -/
theorem bandit_step_composition {k nA : ℕ} (bandit : LinUCBBandit k nA)
    (features : List (String × ℚ)) (reward_fn : ℕ → ℚ) :
    (bandit_step bandit features reward_fn).1.1 =
      bandit.select (fun i => (features.map Prod.snd).getD i 0) ∧
    (bandit_step bandit features reward_fn).1.2 =
      reward_fn (bandit.select (fun i => (features.map Prod.snd).getD i 0)) ∧
    (bandit_step bandit features reward_fn).2 =
      bandit.update (fun i => (features.map Prod.snd).getD i 0)
        (bandit.select (fun i => (features.map Prod.snd).getD i 0))
        (reward_fn (bandit.select (fun i => (features.map Prod.snd).getD i 0))) :=
  ⟨rfl, rfl, rfl⟩

/-- C10: the five absolute band-power entries are present — with the
powers of the corresponding bands as values — for every input,
including when the total defined-band power is `0`. -/
theorem abs_band_features_always_present (psds : List (List ℚ)) (freqs : List ℚ) :
    (extract_spectral_features psds freqs).lookup "abs_delta" =
        some (absBandPower (1/2) 4 psds freqs) ∧
    (extract_spectral_features psds freqs).lookup "abs_theta" =
        some (absBandPower 4 8 psds freqs) ∧
    (extract_spectral_features psds freqs).lookup "abs_alpha" =
        some (absBandPower 8 12 psds freqs) ∧
    (extract_spectral_features psds freqs).lookup "abs_sigma" =
        some (absBandPower 12 15 psds freqs) ∧
    (extract_spectral_features psds freqs).lookup "abs_beta" =
        some (absBandPower 15 30 psds freqs) := by
  rw [extract_spectral_features_eq]
  by_cases h : 0 < totalPower psds freqs <;>
    simp +decide [h, List.lookup, one_div]

end EEGPipeline
